import Mathlib

/-!
Verification of the block codec and memtable of the slatedb_go repository.

Bytes are modelled as natural numbers (a well-formed byte is `< 256`); byte
slices are `List Nat`. Machine-integer conversions (`uint16(x)`, `uint32(x)`)
are modelled by explicit `% 2^16` / `% 2^32`. Go panics (out-of-range slice
indexing, explicit `panic`) are modelled by `Option`: `none` is a fatal
failure.
-/

namespace SlateDB

/-- Constants from src/internal/block.go. -/
def SizeOfUint16InBytes : Nat := 2

def SizeOfUint32InBytes : Nat := 4

/-- Tombstone sentinel: `math.MaxUint32`. -/
def Tombstone : Nat := 4294967295

/-- Big-endian byte pair of a uint16 value. -/
def u16Bytes (v : Nat) : List Nat := [v / 256 % 256, v % 256]

/-- Go `binary.BigEndian.AppendUint16 buf v` (v a uint16 value). -/
def appendUint16 (buf : List Nat) (v : Nat) : List Nat := buf ++ u16Bytes v

/-- Big-endian four bytes of a uint32 value. -/
def u32Bytes (v : Nat) : List Nat :=
  [v / 16777216 % 256, v / 65536 % 256, v / 256 % 256, v % 256]

/-- Go `binary.BigEndian.AppendUint32 buf v`. -/
def appendUint32 (buf : List Nat) (v : Nat) : List Nat := buf ++ u32Bytes v

/-- Read a byte at an index (callers establish the index is in bounds). -/
def byteAt (l : List Nat) (i : Nat) : Nat := l.getD i 0

/-- Go `binary.BigEndian.Uint16(l[i:])` once in bounds. -/
def readU16 (l : List Nat) (i : Nat) : Nat := byteAt l i * 256 + byteAt l (i + 1)

/-- Go `binary.BigEndian.Uint32(l[i:])` once in bounds. -/
def readU32 (l : List Nat) (i : Nat) : Nat :=
  byteAt l i * 16777216 + byteAt l (i + 1) * 65536 + byteAt l (i + 2) * 256 + byteAt l (i + 3)

/-- Block from src/internal/block.go: `data` plus record start `offsets`
(each a uint16 value in the source). -/
structure Block where
  data : List Nat
  offsets : List Nat
deriving Repr, DecidableEq

/-- `Block.encode`: data bytes, then each offset as big-endian uint16, then
the offset count as a trailing uint16 (`uint16(len(b.offsets))` truncates). -/
def Block.encode (b : Block) : List Nat :=
  appendUint16 (b.offsets.foldl appendUint16 b.data) (b.offsets.length % 65536)

/-- `decodeBytesToBlock`. Returns `none` where the Go code would panic:
a negative `offsetCountIndex` (input shorter than 2 bytes) or a negative
`offsetStartIndex` (count too large for the slice), both of which make a Go
slice expression fail fatally. -/
def decodeBytesToBlock (bytes : List Nat) : Option Block :=
  if bytes.length < 2 then none
  else
    let offsetCountIndex := bytes.length - 2
    let offsetCount := readU16 bytes offsetCountIndex
    if offsetCountIndex < offsetCount * 2 then none
    else
      let offsetStartIndex := offsetCountIndex - offsetCount * 2
      let offsets := (List.range offsetCount).map fun i =>
        readU16 bytes (offsetStartIndex + i * 2)
      some { data := bytes.take offsetStartIndex, offsets := offsets }

/-- BlockBuilder from src/internal/block.go. -/
structure BlockBuilder where
  offsets : List Nat
  data : List Nat
  blockSize : Nat
deriving Repr, DecidableEq

def NewBlockBuilder (blockSize : Nat) : BlockBuilder :=
  { offsets := [], data := [], blockSize := blockSize }

def BlockBuilder.estimatedSize (b : BlockBuilder) : Nat :=
  SizeOfUint16InBytes + b.offsets.length * SizeOfUint16InBytes + b.data.length

def BlockBuilder.isEmpty (b : BlockBuilder) : Bool := b.offsets.length == 0

/-- `BlockBuilder.add`. The Go code panics on an empty key (`none` here).
Otherwise it returns the updated builder and the boolean result; a rejected
record returns the builder unchanged with `false`. `uint16(len(b.data))` and
`uint16(len(key))` truncate modulo 2^16; `uint32(valueLen)` modulo 2^32. -/
def BlockBuilder.add (b : BlockBuilder) (key : List Nat) (value : Option (List Nat)) :
    Option (BlockBuilder × Bool) :=
  if key.length = 0 then none
  else
    let valueLen := match value with
      | some v => v.length
      | none => 0
    let newSize := b.estimatedSize + key.length + valueLen +
      SizeOfUint16InBytes * 2 + SizeOfUint32InBytes
    if newSize > b.blockSize ∧ ¬ b.isEmpty then some (b, false)
    else
      let offsets := b.offsets ++ [b.data.length % 65536]
      let data := appendUint16 b.data (key.length % 65536) ++ key
      let data := if valueLen > 0 then
          appendUint32 data (valueLen % 4294967296) ++ value.getD []
        else appendUint32 data Tombstone
      some ({ b with offsets := offsets, data := data }, true)

/-- Error value returned by `build` on an empty builder. -/
inductive BlockError where
  | emptyBlock
deriving Repr, DecidableEq

def BlockBuilder.build (b : BlockBuilder) : Except BlockError Block :=
  if b.isEmpty then .error .emptyBlock
  else .ok { data := b.data, offsets := b.offsets }

/-- ValueDeletable from the internal package: a value or a tombstone marker.
The Go tombstone carries a nil value, modelled as `[]`. -/
structure ValueDeletable where
  value : List Nat
  isTombstone : Bool
deriving Repr, DecidableEq

structure KeyValueDeletable where
  key : List Nat
  valueDel : ValueDeletable
deriving Repr, DecidableEq

structure KeyValue where
  key : List Nat
  value : List Nat
deriving Repr, DecidableEq

/-- Read the key-length prefix and key at a record offset, as both
`newBlockIteratorFromKey` and `loadAtCurrentOffset` do:
`keyLen := Uint16(data[off:]); off += 2; key := data[off : off+keyLen]`.
The offset variable is a uint16 in Go, so every addition wraps modulo 2^16;
an out-of-range slice panics (`none`). Returns the key and the offset just
past it. -/
def readKey (data : List Nat) (offset0 : Nat) : Option (List Nat × Nat) :=
  let off0 := offset0 % 65536
  if off0 + 2 > data.length then none
  else
    let keyLen := readU16 data off0
    let off1 := (off0 + 2) % 65536
    let keyEnd := (off1 + keyLen) % 65536
    if off1 > keyEnd then none
    else if keyEnd > data.length then none
    else some ((data.drop off1).take (keyEnd - off1), keyEnd)

/-- Decode one record at a block-data offset, as `loadAtCurrentOffset` does
after the bounds test: key, then `valueLen := Uint32(data[off:])`; the
tombstone sentinel yields a nil value, otherwise the value slice
`data[off : uint32(off)+valueLen]` follows (uint32 addition wraps). -/
def decodeRecordAt (data : List Nat) (offset0 : Nat) : Option KeyValueDeletable :=
  match readKey data offset0 with
  | none => none
  | some (key, off2) =>
    if off2 + 4 > data.length then none
    else
      let valueLen := readU32 data off2
      let off3 := (off2 + 4) % 65536
      if valueLen = Tombstone then some ⟨key, ⟨[], true⟩⟩
      else
        let vEnd := (off3 + valueLen) % 4294967296
        if off3 > vEnd then none
        else if vEnd > data.length then none
        else some ⟨key, ⟨(data.drop off3).take (vEnd - off3), false⟩⟩

structure BlockIterator where
  block : Block
  offsetIndex : Nat
deriving Repr, DecidableEq

def newBlockIteratorFromFirstKey (block : Block) : BlockIterator :=
  { block := block, offsetIndex := 0 }

/-- Go `bytes.Compare`: byte-lexicographic comparison, a strict prefix is
smaller. -/
def bytesCompare : List Nat → List Nat → Ordering
  | [], [] => .eq
  | [], _ :: _ => .lt
  | _ :: _, [] => .gt
  | a :: as, b :: bs =>
    if a < b then .lt
    else if b < a then .gt
    else bytesCompare as bs

/-- The linear scan of `newBlockIteratorFromKey`: the resulting start index
is the loop's `i` at the first stored key with `bytes.Compare(curKey, key)
>= 0`, or `len(offsets)` when no key qualifies. `none` models a panic while
reading a key. -/
def seekLoop (data targetKey : List Nat) : List Nat → Option Nat
  | [] => some 0
  | off :: rest =>
    match readKey data off with
    | none => none
    | some (curKey, _) =>
      if bytesCompare curKey targetKey = Ordering.lt then
        (seekLoop data targetKey rest).map (· + 1)
      else some 0

def newBlockIteratorFromKey (block : Block) (key : List Nat) : Option BlockIterator :=
  (seekLoop block.data key block.offsets).map fun i =>
    { block := block, offsetIndex := i }

/-- `loadAtCurrentOffset`: `some none` when `offsetIndex >= len(offsets)`
(the Go `mo.None` result), `some (some kv)` for a decoded record, `none`
for a panic while decoding. -/
def BlockIterator.loadAtCurrentOffset (it : BlockIterator) : Option (Option KeyValueDeletable) :=
  if it.block.offsets.length ≤ it.offsetIndex then some none
  else
    match decodeRecordAt it.block.data (it.block.offsets.getD it.offsetIndex 0) with
    | none => none
    | some kv => some (some kv)

def BlockIterator.advance (it : BlockIterator) : BlockIterator :=
  { it with offsetIndex := it.offsetIndex + 1 }

/-- `NextEntry`: the record at the current position plus the advanced
iterator; `some (none, it)` at exhaustion (no advance); `none` for a
panic. -/
def BlockIterator.NextEntry (it : BlockIterator) : Option (Option KeyValueDeletable × BlockIterator) :=
  match it.loadAtCurrentOffset with
  | none => none
  | some none => some (none, it)
  | some (some kv) => some (some kv, it.advance)

/-- The tombstone-skipping loop of `BlockIterator.Next`, with explicit fuel.
Each iteration advances `offsetIndex` by one, so
`len(offsets) + 1` fuel always suffices (see `nextLoop_fuel` uses in the
theorems); running out of fuel (`none` at fuel 0) is unreachable from
`BlockIterator.Next`. -/
def nextLoop : Nat → BlockIterator → Option (Option KeyValue × BlockIterator)
  | 0, _ => none
  | fuel + 1, it =>
    match it.NextEntry with
    | none => none
    | some (none, it1) => some (none, it1)
    | some (some kv, it1) =>
      if kv.valueDel.isTombstone then nextLoop fuel it1
      else some (some ⟨kv.key, kv.valueDel.value⟩, it1)

/-- `BlockIterator.Next`: skips tombstoned records, yields the next live
key/value pair or `none` at exhaustion. -/
def BlockIterator.Next (it : BlockIterator) : Option (Option KeyValue × BlockIterator) :=
  nextLoop (it.block.offsets.length + 1) it

/-- All records of a block in offset order; `none` if any record fails to
decode. -/
def decodeRecords (data : List Nat) : List Nat → Option (List KeyValueDeletable)
  | [] => some []
  | off :: rest =>
    match decodeRecordAt data off, decodeRecords data rest with
    | some r, some rs => some (r :: rs)
    | _, _ => none

/-- All keys of a block in offset order; `none` if any key read panics. -/
def decodeKeys (data : List Nat) : List Nat → Option (List (List Nat))
  | [] => some []
  | off :: rest =>
    match readKey data off, decodeKeys data rest with
    | some (k, _), some ks => some (k :: ks)
    | _, _ => none

/-- Modelled from the spec: the Memtable implementation is not under src/
(only its tests are); §3 and §4.3 describe an ordered associative structure
mapping each key to a value or an explicit tombstone marker. -/
inductive ValueOrTombstone where
  | val (v : List Nat)
  | tombstone
deriving Repr, DecidableEq

/-- Modelled from the spec: the Memtable's ordered structure, as a list of
entries in ascending byte-lexicographic key order (the WAL id and size
accounting of §4.3 are not needed by the claims settled here). -/
structure Memtable where
  entries : List (List Nat × ValueOrTombstone)
deriving Repr, DecidableEq

/-- Modelled from the spec: ordered insert-or-overwrite into the entry
list, keeping ascending key order; an equal key is overwritten in place. -/
def insertEntry (key : List Nat) (v : ValueOrTombstone) :
    List (List Nat × ValueOrTombstone) → List (List Nat × ValueOrTombstone)
  | [] => [(key, v)]
  | (k1, v1) :: rest =>
    match bytesCompare key k1 with
    | .lt => (key, v) :: (k1, v1) :: rest
    | .eq => (key, v) :: rest
    | .gt => (k1, v1) :: insertEntry key v rest

/-- Modelled from the spec: `Put(key, value)` inserts or overwrites. -/
def Memtable.Put (m : Memtable) (key value : List Nat) : Memtable :=
  ⟨insertEntry key (.val value) m.entries⟩

/-- Modelled from the spec: `Delete(key)` inserts a tombstone marker (does
not remove the key). -/
def Memtable.Delete (m : Memtable) (key : List Nat) : Memtable :=
  ⟨insertEntry key .tombstone m.entries⟩

/-- Modelled from the spec: `Get(key)` is `none` if the key has never been
written, otherwise the live value or the explicit tombstone marker. -/
def Memtable.Get (m : Memtable) (key : List Nat) : Option ValueOrTombstone :=
  (m.entries.find? fun p => p.1 == key).map (·.2)

/-- Modelled from the spec: tombstones are filtered out of iteration. -/
def liveEntries (l : List (List Nat × ValueOrTombstone)) : List KeyValue :=
  l.filterMap fun p =>
    match p.2 with
    | .val v => some ⟨p.1, v⟩
    | .tombstone => none

/-- Modelled from the spec: `Iter()` yields live pairs in ascending key
order, tombstones filtered out. -/
def Memtable.Iter (m : Memtable) : List KeyValue := liveEntries m.entries

/-- Modelled from the spec: `RangeFrom(key)` starts at the first stored key
`>= key`, with the same tombstone filtering as `Iter`. -/
def Memtable.RangeFrom (m : Memtable) (key : List Nat) : List KeyValue :=
  liveEntries (m.entries.dropWhile fun p => bytesCompare p.1 key = Ordering.lt)

/-- Well-formedness of the ordered structure: keys strictly ascending. -/
def Memtable.wf (m : Memtable) : Prop :=
  m.entries.Pairwise fun p q => bytesCompare p.1 q.1 = Ordering.lt

instance (m : Memtable) : Decidable m.wf := by
  unfold Memtable.wf
  infer_instance

/-! Helper lemmas about byte reads over concatenated buffers. -/

theorem byteAt_append_right (l₁ l₂ : List Nat) (j : Nat) :
    byteAt (l₁ ++ l₂) (l₁.length + j) = byteAt l₂ j := by
  unfold byteAt
  rw [List.getD_append_right l₁ l₂ 0 (l₁.length + j) (Nat.le_add_right _ _)]
  congr 1
  omega

theorem byteAt_append_left (l₁ l₂ : List Nat) (j : Nat) (h : j < l₁.length) :
    byteAt (l₁ ++ l₂) j = byteAt l₁ j := by
  unfold byteAt
  rw [List.getD_append l₁ l₂ 0 j h]

/-- A uint16 value is reconstructed from its two big-endian bytes. -/
theorem readU16_u16Bytes (v : Nat) (hv : v < 65536) (rest : List Nat) :
    readU16 (u16Bytes v ++ rest) 0 = v := by
  have h1 : v / 256 < 256 := by omega
  simp [readU16, u16Bytes, byteAt]
  omega

/-- Concatenation of the big-endian encodings of a list of uint16 values. -/
def u16s : List Nat → List Nat
  | [] => []
  | o :: rest => u16Bytes o ++ u16s rest

theorem u16s_length (offs : List Nat) : (u16s offs).length = 2 * offs.length := by
  induction offs with
  | nil => rfl
  | cons o rest ih => simp [u16s, u16Bytes, ih]; omega

theorem foldl_appendUint16_eq (offs : List Nat) (data : List Nat) :
    offs.foldl appendUint16 data = data ++ u16s offs := by
  induction offs generalizing data with
  | nil => simp [u16s]
  | cons o rest ih =>
    simp only [List.foldl_cons, ih, appendUint16, u16s, List.append_assoc]

theorem byteAt_u16s (offs : List Nat) (i : Nat) (h : i < offs.length) :
    byteAt (u16s offs) (2 * i) = offs.getD i 0 / 256 % 256 ∧
    byteAt (u16s offs) (2 * i + 1) = offs.getD i 0 % 256 := by
  induction offs generalizing i with
  | nil => simp at h
  | cons o rest ih =>
    cases i with
    | zero => simp [u16s, u16Bytes, byteAt]
    | succ j =>
      have hj : j < rest.length := by simpa using h
      have e1 : 2 * (j + 1) = (u16Bytes o).length + 2 * j := by simp [u16Bytes]; omega
      have e2 : 2 * (j + 1) + 1 = (u16Bytes o).length + (2 * j + 1) := by
        simp [u16Bytes]; omega
      constructor
      · rw [u16s, e1, byteAt_append_right]
        simpa using (ih j hj).1
      · rw [u16s, e2, byteAt_append_right]
        simpa using (ih j hj).2

theorem u16_reassemble (o : Nat) (ho : o < 65536) :
    o / 256 % 256 * 256 + o % 256 = o := by
  omega

theorem readU16_at_append (pre post : List Nat) (v : Nat) (hv : v < 65536) :
    readU16 (pre ++ (u16Bytes v ++ post)) pre.length = v := by
  unfold readU16
  have h0 : byteAt (pre ++ (u16Bytes v ++ post)) pre.length =
      byteAt (u16Bytes v ++ post) 0 := by
    simpa using byteAt_append_right pre (u16Bytes v ++ post) 0
  have h1 : byteAt (pre ++ (u16Bytes v ++ post)) (pre.length + 1) =
      byteAt (u16Bytes v ++ post) 1 := byteAt_append_right pre (u16Bytes v ++ post) 1
  rw [h0, h1]
  simp [u16Bytes, byteAt]
  omega

theorem readU32_at_append (pre post : List Nat) (v : Nat) (hv : v < 4294967296) :
    readU32 (pre ++ (u32Bytes v ++ post)) pre.length = v := by
  unfold readU32
  have h0 : byteAt (pre ++ (u32Bytes v ++ post)) pre.length =
      byteAt (u32Bytes v ++ post) 0 := by
    simpa using byteAt_append_right pre (u32Bytes v ++ post) 0
  have h1 := byteAt_append_right pre (u32Bytes v ++ post) 1
  have h2 := byteAt_append_right pre (u32Bytes v ++ post) 2
  have h3 := byteAt_append_right pre (u32Bytes v ++ post) 3
  rw [h0, h1, h2, h3]
  simp [u32Bytes, byteAt]
  omega

theorem build_ok (b : BlockBuilder) (h : b.offsets ≠ []) :
    b.build = Except.ok ⟨b.data, b.offsets⟩ := by
  simp [BlockBuilder.build, BlockBuilder.isEmpty, h, List.length_eq_zero]

theorem build_err (b : BlockBuilder) (h : b.offsets = []) :
    b.build = Except.error BlockError.emptyBlock := by
  simp [BlockBuilder.build, BlockBuilder.isEmpty, h]

theorem encode_length (b : Block) :
    b.encode.length = b.data.length + 2 * b.offsets.length + 2 := by
  simp [Block.encode, appendUint16, foldl_appendUint16_eq, u16s_length, u16Bytes]
  omega

/-! Claim theorems. -/

/-- Claim C5: `build()` returns the `EmptyBlockError` value if and only if
the builder never accepted a record (its offsets list is empty); otherwise
it returns, without error, a Block whose data and offsets are exactly the
builder's accumulated data and offsets. -/
theorem c5_build_empty (b : BlockBuilder) :
    (b.offsets = [] → b.build = Except.error BlockError.emptyBlock) ∧
    (b.offsets ≠ [] → b.build = Except.ok ⟨b.data, b.offsets⟩) := by
  constructor <;> intro h <;>
    simp [BlockBuilder.build, BlockBuilder.isEmpty, h, List.length_eq_zero]

/-- Witness for C5 at a concrete empty and a concrete non-empty builder. -/
theorem c5_build_empty_witness :
    (NewBlockBuilder 10).build = Except.error BlockError.emptyBlock ∧
    (BlockBuilder.mk [0] [0, 1, 7, 255, 255, 255, 255] 10).build =
      Except.ok ⟨[0, 1, 7, 255, 255, 255, 255], [0]⟩ :=
  ⟨(c5_build_empty (NewBlockBuilder 10)).1 rfl,
   (c5_build_empty (BlockBuilder.mk [0] [0, 1, 7, 255, 255, 255, 255] 10)).2 (by decide)⟩

/-- Claim C6: for every builder state and every optional value, calling
`add` with an empty key is a fatal, unrecoverable failure (a Go panic,
modelled as `none`), not a normal `false` return, and no mutated builder
state is produced. -/
theorem c6_add_empty_key_panics (b : BlockBuilder) (v : Option (List Nat)) :
    b.add [] v = none := by
  simp [BlockBuilder.add]

/-- Claim C8: for every byte slice shorter than the minimum frame of two
trailing count bytes, `decodeBytesToBlock` fails fatally (out-of-bounds
slice indexing, modelled as `none`) rather than returning a Block or a
recoverable error. -/
theorem c8_decode_short_input (bytes : List Nat) (h : bytes.length < 2) :
    decodeBytesToBlock bytes = none := by
  simp [decodeBytesToBlock, h]

/-- Witness for C8 at the concrete one-byte input `[7]`. -/
theorem c8_decode_short_input_witness :
    ([7] : List Nat).length < 2 ∧ decodeBytesToBlock [7] = none :=
  ⟨by decide, c8_decode_short_input [7] (by decide)⟩

theorem bytesCompare_self (a : List Nat) : bytesCompare a a = Ordering.eq := by
  induction a with
  | nil => rfl
  | cons x xs ih => simp [bytesCompare, ih]

theorem bytesCompare_eq (a b : List Nat) (h : bytesCompare a b = Ordering.eq) :
    a = b := by
  induction a generalizing b with
  | nil =>
    cases b with
    | nil => rfl
    | cons y ys => simp [bytesCompare] at h
  | cons x xs ih =>
    cases b with
    | nil => simp [bytesCompare] at h
    | cons y ys =>
      rcases Nat.lt_trichotomy x y with hxy | hxy | hxy
      · simp [bytesCompare, hxy] at h
      · subst hxy
        simp only [bytesCompare, lt_irrefl, if_false] at h
        rw [ih ys h]
      · simp [bytesCompare, hxy, Nat.lt_asymm hxy] at h

theorem bytesCompare_gt_iff : ∀ (a b : List Nat),
    bytesCompare a b = Ordering.gt ↔ bytesCompare b a = Ordering.lt
  | [], [] => by simp [bytesCompare]
  | [], _ :: _ => by simp [bytesCompare]
  | _ :: _, [] => by simp [bytesCompare]
  | x :: xs, y :: ys => by
    have ih := bytesCompare_gt_iff xs ys
    rcases Nat.lt_trichotomy x y with hxy | hxy | hxy
    · simp [bytesCompare, hxy, Nat.lt_asymm hxy]
    · subst hxy
      simpa [bytesCompare] using ih
    · simp [bytesCompare, hxy, Nat.lt_asymm hxy]

theorem bytesCompare_lt_trans : ∀ {a b c : List Nat},
    bytesCompare a b = Ordering.lt → bytesCompare b c = Ordering.lt →
    bytesCompare a c = Ordering.lt
  | [], [], _, h1, _ => by simp [bytesCompare] at h1
  | [], _ :: _, [], _, h2 => by simp [bytesCompare] at h2
  | [], _ :: _, _ :: _, _, _ => rfl
  | _ :: _, [], _, h1, _ => by simp [bytesCompare] at h1
  | _ :: _, _ :: _, [], _, h2 => by simp [bytesCompare] at h2
  | x :: xs, y :: ys, z :: zs, h1, h2 => by
    rcases Nat.lt_trichotomy x y with hxy | hxy | hxy <;>
      rcases Nat.lt_trichotomy y z with hyz | hyz | hyz
    · simp [bytesCompare, show x < z by omega]
    · subst hyz; simp [bytesCompare, hxy]
    · simp [bytesCompare, hyz, Nat.lt_asymm hyz] at h2
    · subst hxy; simp [bytesCompare, hyz]
    · subst hxy; subst hyz
      simp only [bytesCompare, lt_irrefl, if_false] at h1 h2 ⊢
      exact bytesCompare_lt_trans h1 h2
    · simp [bytesCompare, hyz, Nat.lt_asymm hyz] at h2
    · simp [bytesCompare, hxy, Nat.lt_asymm hxy] at h1
    · simp [bytesCompare, hxy, Nat.lt_asymm hxy] at h1
    · simp [bytesCompare, hxy, Nat.lt_asymm hxy] at h1

theorem bytesCompare_self_not_lt (a : List Nat) :
    ¬ bytesCompare a a = Ordering.lt := by
  rw [bytesCompare_self]
  intro h
  cases h

theorem find?_insertEntry (key : List Nat) (tv : ValueOrTombstone)
    (l : List (List Nat × ValueOrTombstone)) :
    ((insertEntry key tv l).find? fun p => p.1 == key) = some (key, tv) := by
  induction l with
  | nil => simp [insertEntry]
  | cons e rest ih =>
    obtain ⟨k1, v1⟩ := e
    cases hc : bytesCompare key k1 with
    | lt => simp [insertEntry, hc]
    | eq => simp [insertEntry, hc]
    | gt =>
      have hne : ¬ k1 = key := by
        intro he
        subst he
        rw [bytesCompare_self] at hc
        cases hc
      simp only [insertEntry, hc]
      rw [List.find?_cons_of_neg _ (by simpa using hne)]
      exact ih

theorem mem_insertEntry {p : List Nat × ValueOrTombstone} {key : List Nat}
    {tv : ValueOrTombstone} {l : List (List Nat × ValueOrTombstone)}
    (h : p ∈ insertEntry key tv l) : p = (key, tv) ∨ p ∈ l := by
  induction l with
  | nil => simpa [insertEntry] using h
  | cons e rest ih =>
    obtain ⟨k1, v1⟩ := e
    cases hc : bytesCompare key k1 with
    | lt =>
      simp only [insertEntry, hc, List.mem_cons] at h
      rcases h with h | h | h
      · exact Or.inl h
      · exact Or.inr (by simp [h])
      · exact Or.inr (by simp [h])
    | eq =>
      simp only [insertEntry, hc, List.mem_cons] at h
      rcases h with h | h
      · exact Or.inl h
      · exact Or.inr (by simp [h])
    | gt =>
      simp only [insertEntry, hc, List.mem_cons] at h
      rcases h with h | h
      · exact Or.inr (by simp [h])
      · rcases ih h with h1 | h1
        · exact Or.inl h1
        · exact Or.inr (by simp [h1])

theorem pairwise_insertEntry (key : List Nat) (tv : ValueOrTombstone)
    (l : List (List Nat × ValueOrTombstone))
    (h : l.Pairwise fun p q => bytesCompare p.1 q.1 = Ordering.lt) :
    (insertEntry key tv l).Pairwise fun p q => bytesCompare p.1 q.1 = Ordering.lt := by
  induction l with
  | nil => simp [insertEntry]
  | cons e rest ih =>
    obtain ⟨k1, v1⟩ := e
    rw [List.pairwise_cons] at h
    obtain ⟨hk1, hrest⟩ := h
    cases hc : bytesCompare key k1 with
    | lt =>
      simp only [insertEntry, hc]
      refine List.Pairwise.cons ?_ (List.Pairwise.cons hk1 hrest)
      intro b hb
      rcases List.mem_cons.1 hb with hb1 | hb1
      · rw [hb1]
        exact hc
      · exact bytesCompare_lt_trans hc (hk1 b hb1)
    | eq =>
      have he := bytesCompare_eq _ _ hc
      subst he
      simp only [insertEntry, hc]
      exact List.Pairwise.cons hk1 hrest
    | gt =>
      simp only [insertEntry, hc]
      refine List.Pairwise.cons ?_ (ih hrest)
      intro b hb
      rcases mem_insertEntry hb with hb1 | hb1
      · rw [hb1]
        exact (bytesCompare_gt_iff key k1).1 hc
      · exact hk1 b hb1

theorem insertEntry_key_unique (key : List Nat) (tv : ValueOrTombstone)
    (l : List (List Nat × ValueOrTombstone))
    (h : l.Pairwise fun p q => bytesCompare p.1 q.1 = Ordering.lt) :
    ∀ p ∈ insertEntry key tv l, p.1 = key → p.2 = tv := by
  induction l with
  | nil =>
    intro p hp _
    simp only [insertEntry, List.mem_singleton] at hp
    rw [hp]
  | cons e rest ih =>
    obtain ⟨k1, v1⟩ := e
    rw [List.pairwise_cons] at h
    obtain ⟨hk1, hrest⟩ := h
    intro p hp hpk
    cases hc : bytesCompare key k1 with
    | lt =>
      simp only [insertEntry, hc, List.mem_cons] at hp
      rcases hp with hp | hp | hp
      · rw [hp]
      · exfalso
        rw [hp] at hpk
        simp only at hpk
        subst hpk
        exact bytesCompare_self_not_lt _ hc
      · exfalso
        have hlt := bytesCompare_lt_trans hc (hk1 p hp)
        rw [hpk] at hlt
        exact bytesCompare_self_not_lt key hlt
    | eq =>
      simp only [insertEntry, hc, List.mem_cons] at hp
      rcases hp with hp | hp
      · rw [hp]
      · exfalso
        have he := bytesCompare_eq _ _ hc
        subst he
        have hlt := hk1 p hp
        rw [hpk] at hlt
        exact bytesCompare_self_not_lt key hlt
    | gt =>
      simp only [insertEntry, hc, List.mem_cons] at hp
      rcases hp with hp | hp
      · exfalso
        rw [hp] at hpk
        simp only at hpk
        subst hpk
        rw [bytesCompare_self] at hc
        cases hc
      · exact ih hrest p hp hpk

/-- Claim C7: after `Put(k, v)` then `Delete(k)` on a well-formed Memtable,
`Get(k)` reports a present tombstone (not absence), and both `Iter()` and
`RangeFrom` omit `k` entirely. -/
theorem c7_tombstone_shadowing (m : Memtable) (k v : List Nat) (hwf : m.wf) :
    ((m.Put k v).Delete k).Get k = some ValueOrTombstone.tombstone ∧
    (∀ p ∈ ((m.Put k v).Delete k).Iter, p.key ≠ k) ∧
    (∀ s, ∀ p ∈ ((m.Put k v).Delete k).RangeFrom s, p.key ≠ k) := by
  have hpw : (insertEntry k (ValueOrTombstone.val v) m.entries).Pairwise
      fun p q => bytesCompare p.1 q.1 = Ordering.lt :=
    pairwise_insertEntry _ _ _ hwf
  have hmain : ∀ q, q ∈ insertEntry k ValueOrTombstone.tombstone
      (insertEntry k (ValueOrTombstone.val v) m.entries) → q.1 = k →
      q.2 = ValueOrTombstone.tombstone :=
    insertEntry_key_unique _ _ _ hpw
  refine ⟨?_, ?_, ?_⟩
  · simp only [Memtable.Get, Memtable.Delete, Memtable.Put, find?_insertEntry]
    rfl
  · intro p hp hpk
    simp only [Memtable.Iter, Memtable.Delete, Memtable.Put, liveEntries] at hp
    rw [List.mem_filterMap] at hp
    obtain ⟨q, hq, hmatch⟩ := hp
    cases hv : q.2 with
    | tombstone =>
      rw [hv] at hmatch
      cases hmatch
    | val v2 =>
      rw [hv] at hmatch
      obtain rfl : (⟨q.1, v2⟩ : KeyValue) = p := by simpa using hmatch
      have hq2 := hmain q hq (by simpa using hpk)
      rw [hv] at hq2
      cases hq2
  · intro s p hp hpk
    simp only [Memtable.RangeFrom, Memtable.Delete, Memtable.Put, liveEntries] at hp
    rw [List.mem_filterMap] at hp
    obtain ⟨q, hq, hmatch⟩ := hp
    have hq' := (List.dropWhile_sublist _).mem hq
    cases hv : q.2 with
    | tombstone =>
      rw [hv] at hmatch
      cases hmatch
    | val v2 =>
      rw [hv] at hmatch
      obtain rfl : (⟨q.1, v2⟩ : KeyValue) = p := by simpa using hmatch
      have hq2 := hmain q hq' (by simpa using hpk)
      rw [hv] at hq2
      cases hq2

/-- Witness for C7 at a concrete one-entry memtable. -/
theorem c7_tombstone_shadowing_witness :
    (Memtable.mk [([1], ValueOrTombstone.val [2])]).wf ∧
    (((Memtable.mk [([1], ValueOrTombstone.val [2])]).Put [1] [9]).Delete [1]).Get [1] =
      some ValueOrTombstone.tombstone :=
  ⟨by decide,
   (c7_tombstone_shadowing (Memtable.mk [([1], ValueOrTombstone.val [2])]) [1] [9]
      (by decide)).1⟩

/-- Claim C10: for every builder with at least one accepted record,
`estimatedSize()` equals exactly the length of the byte slice produced by
encoding the built block, and both equal
`2 + 2*len(offsets) + len(data)`. -/
theorem c10_estimated_size_exact (b : BlockBuilder) (h : b.offsets ≠ []) :
    ∃ block, b.build = Except.ok block ∧
      b.estimatedSize = block.encode.length ∧
      b.estimatedSize = 2 + 2 * b.offsets.length + b.data.length := by
  refine ⟨⟨b.data, b.offsets⟩, build_ok b h, ?_, ?_⟩
  · rw [encode_length]
    simp [BlockBuilder.estimatedSize, SizeOfUint16InBytes]
    omega
  · simp [BlockBuilder.estimatedSize, SizeOfUint16InBytes]
    omega

/-- Witness for C10 at a concrete one-record builder. -/
theorem c10_estimated_size_exact_witness :
    (BlockBuilder.mk [0] [0, 1, 7, 255, 255, 255, 255] 10).offsets ≠ [] ∧
    ∃ block,
      (BlockBuilder.mk [0] [0, 1, 7, 255, 255, 255, 255] 10).build = Except.ok block ∧
      (BlockBuilder.mk [0] [0, 1, 7, 255, 255, 255, 255] 10).estimatedSize =
        block.encode.length ∧
      (BlockBuilder.mk [0] [0, 1, 7, 255, 255, 255, 255] 10).estimatedSize =
        2 + 2 * (BlockBuilder.mk [0] [0, 1, 7, 255, 255, 255, 255] 10).offsets.length +
          (BlockBuilder.mk [0] [0, 1, 7, 255, 255, 255, 255] 10).data.length :=
  ⟨by decide, c10_estimated_size_exact _ (by decide)⟩

/-- Claim C2: with budget `B`, a non-empty key and an optional value, if the
builder already holds at least one record and the projected encoded size
(2 count bytes, 2 bytes per offset including the new one, and the data
bytes including the new record's 2-byte key length, key, 4-byte value
length and value) would exceed `B`, then `add` returns `false` and leaves
the builder unchanged; otherwise — in particular always on the very first
add — `add` appends the record's offset and bytes and returns `true`. -/
theorem c2_add_budget (b : BlockBuilder) (k : List Nat) (v : Option (List Nat))
    (hk : k ≠ []) :
    (2 + 2 * (b.offsets.length + 1) +
        (b.data.length + 2 + k.length + 4 + (v.getD []).length) > b.blockSize ∧
        b.offsets ≠ [] →
      b.add k v = some (b, false)) ∧
    (2 + 2 * (b.offsets.length + 1) +
        (b.data.length + 2 + k.length + 4 + (v.getD []).length) ≤ b.blockSize ∨
        b.offsets = [] →
      b.add k v = some
        ({ offsets := b.offsets ++ [b.data.length % 65536],
           data := b.data ++ (u16Bytes (k.length % 65536) ++ k ++
             (if (v.getD []).length > 0
              then u32Bytes ((v.getD []).length % 4294967296) ++ v.getD []
              else u32Bytes Tombstone)),
           blockSize := b.blockSize }, true)) := by
  have hk' : ¬ k.length = 0 := by simpa [List.length_eq_zero] using hk
  constructor
  · rintro ⟨hsz, hne⟩
    have hempty : ¬ b.isEmpty := by
      simp [BlockBuilder.isEmpty, List.length_eq_zero, hne]
    cases v with
    | none =>
      simp only [Option.getD_none, List.length_nil] at hsz
      simp only [BlockBuilder.add, hk', if_false, BlockBuilder.estimatedSize,
        SizeOfUint16InBytes, SizeOfUint32InBytes]
      rw [if_pos ⟨by omega, hempty⟩]
    | some vv =>
      simp only [Option.getD_some] at hsz
      simp only [BlockBuilder.add, hk', if_false, BlockBuilder.estimatedSize,
        SizeOfUint16InBytes, SizeOfUint32InBytes]
      rw [if_pos ⟨by omega, hempty⟩]
  · intro hok
    have hcond : ∀ vl : Nat,
        vl = (v.getD []).length →
        ¬ (BlockBuilder.estimatedSize b + k.length + vl +
            SizeOfUint16InBytes * 2 + SizeOfUint32InBytes > b.blockSize ∧
           ¬ b.isEmpty) := by
      intro vl hvl
      cases hok with
      | inl hle =>
        rintro ⟨hgt, -⟩
        simp only [BlockBuilder.estimatedSize, SizeOfUint16InBytes,
          SizeOfUint32InBytes, hvl] at hgt
        omega
      | inr hnil =>
        rintro ⟨-, hne⟩
        exact hne (by simp [BlockBuilder.isEmpty, hnil])
    cases v with
    | none =>
      simp only [BlockBuilder.add, hk', if_false]
      rw [if_neg (hcond 0 (by simp))]
      simp [appendUint16, appendUint32, List.append_assoc]
    | some vv =>
      simp only [BlockBuilder.add, hk', if_false]
      rw [if_neg (hcond vv.length (by simp))]
      by_cases hv : vv.length > 0
      · simp [hv, appendUint16, appendUint32, List.append_assoc]
      · simp [hv, appendUint16, appendUint32, List.append_assoc]

/-- Claim C1: for every well-formed Block (offsets are uint16 values and
the record count fits a uint16, as holds for any block a builder produced
within those machine-width bounds), decoding the byte slice produced by
encoding yields a Block with identical data and offsets. -/
theorem c1_round_trip (b : Block)
    (hlen : b.offsets.length < 65536)
    (hoff : ∀ o ∈ b.offsets, o < 65536) :
    decodeBytesToBlock b.encode = some b := by
  have hE : b.encode = b.data ++ (u16s b.offsets ++ u16Bytes (b.offsets.length % 65536)) := by
    simp [Block.encode, foldl_appendUint16_eq, appendUint16, List.append_assoc]
  have hlenE : b.encode.length = b.data.length + 2 * b.offsets.length + 2 :=
    encode_length b
  have hpre : (b.data ++ u16s b.offsets).length =
      b.data.length + 2 * b.offsets.length := by
    simp [u16s_length]
  have hcount : readU16 b.encode (b.encode.length - 2) = b.offsets.length := by
    have hidx : b.encode.length - 2 = (b.data ++ u16s b.offsets).length := by omega
    have hE2 : b.encode = (b.data ++ u16s b.offsets) ++
        (u16Bytes (b.offsets.length % 65536) ++ []) := by
      rw [hE]; simp [List.append_assoc]
    rw [hidx, hE2, readU16_at_append _ _ _ (Nat.mod_lt _ (by norm_num))]
    exact Nat.mod_eq_of_lt hlen
  have hoffread : ∀ i, i < b.offsets.length →
      readU16 b.encode (b.data.length + i * 2) = b.offsets.getD i 0 := by
    intro i hi
    have hmem : b.offsets.getD i 0 ∈ b.offsets := by
      rw [List.getD_eq_getElem _ _ hi]
      exact List.getElem_mem hi
    have ho : b.offsets.getD i 0 < 65536 := hoff _ hmem
    have h2i : i * 2 < (u16s b.offsets).length := by rw [u16s_length]; omega
    have h2i1 : i * 2 + 1 < (u16s b.offsets).length := by rw [u16s_length]; omega
    have hb0 : byteAt b.encode (b.data.length + i * 2) =
        byteAt (u16s b.offsets) (i * 2) := by
      rw [hE, byteAt_append_right, byteAt_append_left _ _ _ h2i]
    have hb1 : byteAt b.encode (b.data.length + i * 2 + 1) =
        byteAt (u16s b.offsets) (i * 2 + 1) := by
      rw [hE, Nat.add_assoc, byteAt_append_right, byteAt_append_left _ _ _ h2i1]
    have hu := byteAt_u16s b.offsets i hi
    rw [readU16, hb0, hb1, Nat.mul_comm i 2] at *
    rw [hu.1, hu.2]
    exact u16_reassemble _ ho
  simp only [decodeBytesToBlock]
  rw [if_neg (by omega), hcount, if_neg (by omega)]
  have hstart : b.encode.length - 2 - b.offsets.length * 2 = b.data.length := by omega
  rw [hstart]
  refine congrArg some ?_
  have hdata : b.encode.take b.data.length = b.data := by
    rw [hE]; exact List.take_left _ _
  have hoffsets : (List.range b.offsets.length).map
      (fun i => readU16 b.encode (b.data.length + i * 2)) = b.offsets := by
    refine List.ext_getElem (by simp) ?_
    intro i h1 h2
    simp only [List.getElem_map, List.getElem_range]
    rw [hoffread i h2, List.getD_eq_getElem _ _ h2]
  calc Block.mk (b.encode.take b.data.length)
        ((List.range b.offsets.length).map
          (fun i => readU16 b.encode (b.data.length + i * 2)))
      = Block.mk b.data b.offsets := by rw [hdata, hoffsets]
    _ = b := rfl

/-- Witness for C1 at a concrete two-record block (one live record, one
tombstone). -/
theorem c1_round_trip_witness :
    (Block.mk [0, 1, 2, 0, 0, 0, 1, 9, 0, 1, 4, 255, 255, 255, 255] [0, 8]).offsets.length < 65536 ∧
    (∀ o ∈ (Block.mk [0, 1, 2, 0, 0, 0, 1, 9, 0, 1, 4, 255, 255, 255, 255] [0, 8]).offsets,
      o < 65536) ∧
    decodeBytesToBlock
        (Block.mk [0, 1, 2, 0, 0, 0, 1, 9, 0, 1, 4, 255, 255, 255, 255] [0, 8]).encode =
      some (Block.mk [0, 1, 2, 0, 0, 0, 1, 9, 0, 1, 4, 255, 255, 255, 255] [0, 8]) :=
  ⟨by decide, by decide,
   c1_round_trip (Block.mk [0, 1, 2, 0, 0, 0, 1, 9, 0, 1, 4, 255, 255, 255, 255] [0, 8])
     (by decide) (by decide)⟩

theorem decodeKeys_some (data : List Nat) (offs : List Nat) (keys : List (List Nat))
    (h : decodeKeys data offs = some keys) :
    keys.length = offs.length ∧
    ∀ off rest, offs = off :: rest →
      ∃ k e ks, readKey data off = some (k, e) ∧ decodeKeys data rest = some ks ∧
        keys = k :: ks := by
  induction offs generalizing keys with
  | nil =>
    simp [decodeKeys] at h
    subst h
    exact ⟨rfl, by intro off rest hco; cases hco⟩
  | cons off rest ih =>
    refine ⟨?_, ?_⟩
    · simp only [decodeKeys] at h
      cases hr : readKey data off with
      | none => rw [hr] at h; cases h
      | some kv =>
        cases hd : decodeKeys data rest with
        | none => rw [hr, hd] at h; cases h
        | some ks =>
          rw [hr, hd] at h
          obtain ⟨k, e⟩ := kv
          simp only [Option.some.injEq] at h
          subst h
          simp [(ih ks hd).1]
    · intro off1 rest1 hco
      obtain ⟨he1, he2⟩ := List.cons.inj hco
      subst he1; subst he2
      simp only [decodeKeys] at h
      cases hr : readKey data off with
      | none => rw [hr] at h; cases h
      | some kv =>
        cases hd : decodeKeys data rest with
        | none => rw [hr, hd] at h; cases h
        | some ks =>
          rw [hr, hd] at h
          obtain ⟨k, e⟩ := kv
          simp only [Option.some.injEq] at h
          exact ⟨k, e, ks, rfl, rfl, h.symm⟩

theorem seekLoop_spec (data target : List Nat) (offs : List Nat)
    (keys : List (List Nat)) (h : decodeKeys data offs = some keys) :
    ∃ idx, seekLoop data target offs = some idx ∧ idx ≤ keys.length ∧
      (∀ j, j < idx → bytesCompare (keys.getD j []) target = Ordering.lt) ∧
      (idx < keys.length → ¬ bytesCompare (keys.getD idx []) target = Ordering.lt) := by
  induction offs generalizing keys with
  | nil =>
    simp [decodeKeys] at h
    subst h
    exact ⟨0, rfl, by simp, by omega, by simp⟩
  | cons off rest ih =>
    obtain ⟨k, e, ks, hr, hd, hkeys⟩ := (decodeKeys_some data _ keys h).2 off rest rfl
    subst hkeys
    by_cases hc : bytesCompare k target = Ordering.lt
    · obtain ⟨idx, hs, hle, hall, hnot⟩ := ih ks hd
      refine ⟨idx + 1, ?_, by simp; omega, ?_, ?_⟩
      · simp [seekLoop, hr, hc, hs]
      · intro j hj
        cases j with
        | zero => simpa using hc
        | succ j1 => simpa using hall j1 (by omega)
      · intro hlt
        simpa using hnot (by simpa using hlt)
    · refine ⟨0, ?_, by simp, by omega, ?_⟩
      · simp [seekLoop, hr, hc]
      · intro _
        simpa using hc

/-- Claim C3: for every Block whose keys all decode and every target key,
`newBlockIteratorFromKey` positions the iterator at the first offset index
whose decoded key is byte-lexicographically `>= k` (every earlier key is
`< k`); the index never exceeds the offset count, and when it equals it
(in particular when `k` is greater than every stored key) the iterator is
immediately exhausted. When `k` is below every stored key the first clause
forces index 0. -/
theorem c3_seek_lower_bound (block : Block) (k : List Nat) (keys : List (List Nat))
    (h : decodeKeys block.data block.offsets = some keys) :
    ∃ idx, newBlockIteratorFromKey block k = some ⟨block, idx⟩ ∧
      idx ≤ keys.length ∧
      (∀ j, j < idx → bytesCompare (keys.getD j []) k = Ordering.lt) ∧
      (idx < keys.length → ¬ bytesCompare (keys.getD idx []) k = Ordering.lt) ∧
      (idx = keys.length →
        BlockIterator.NextEntry ⟨block, idx⟩ = some (none, ⟨block, idx⟩)) := by
  obtain ⟨idx, hs, hle, hall, hnot⟩ := seekLoop_spec block.data k block.offsets keys h
  refine ⟨idx, ?_, hle, hall, hnot, ?_⟩
  · simp [newBlockIteratorFromKey, hs]
  · intro hidx
    have hlen := (decodeKeys_some block.data block.offsets keys h).1
    have hge : block.offsets.length ≤ idx := by omega
    simp [BlockIterator.NextEntry, BlockIterator.loadAtCurrentOffset, hge]

/-- Witness for C3 at a concrete two-record block sought with a key lying
between the two stored keys. -/
theorem c3_seek_lower_bound_witness :
    decodeKeys [0, 1, 2, 0, 0, 0, 1, 9, 0, 1, 4, 255, 255, 255, 255] [0, 8] =
      some [[2], [4]] ∧
    ∃ idx,
      newBlockIteratorFromKey
          (Block.mk [0, 1, 2, 0, 0, 0, 1, 9, 0, 1, 4, 255, 255, 255, 255] [0, 8]) [3] =
        some ⟨Block.mk [0, 1, 2, 0, 0, 0, 1, 9, 0, 1, 4, 255, 255, 255, 255] [0, 8], idx⟩ ∧
      idx ≤ ([[2], [4]] : List (List Nat)).length ∧
      (∀ j, j < idx →
        bytesCompare (([[2], [4]] : List (List Nat)).getD j []) [3] = Ordering.lt) ∧
      (idx < ([[2], [4]] : List (List Nat)).length →
        ¬ bytesCompare (([[2], [4]] : List (List Nat)).getD idx []) [3] = Ordering.lt) ∧
      (idx = ([[2], [4]] : List (List Nat)).length →
        BlockIterator.NextEntry
            ⟨Block.mk [0, 1, 2, 0, 0, 0, 1, 9, 0, 1, 4, 255, 255, 255, 255] [0, 8], idx⟩ =
          some (none,
            ⟨Block.mk [0, 1, 2, 0, 0, 0, 1, 9, 0, 1, 4, 255, 255, 255, 255] [0, 8], idx⟩)) :=
  ⟨by decide,
   c3_seek_lower_bound
     (Block.mk [0, 1, 2, 0, 0, 0, 1, 9, 0, 1, 4, 255, 255, 255, 255] [0, 8])
     [3] [[2], [4]] (by decide)⟩

/-- The record of a decoded record list at a position (with a default that
never arises at in-range positions). -/
def recAt (recs : List KeyValueDeletable) (i : Nat) : KeyValueDeletable :=
  recs.getD i ⟨[], ⟨[], false⟩⟩

theorem recAt_cons_zero (r : KeyValueDeletable) (rs : List KeyValueDeletable) :
    recAt (r :: rs) 0 = r := rfl

theorem recAt_cons_succ (r : KeyValueDeletable) (rs : List KeyValueDeletable) (j : Nat) :
    recAt (r :: rs) (j + 1) = recAt rs j := rfl

theorem decodeRecords_some (data : List Nat) (offs : List Nat)
    (recs : List KeyValueDeletable) (h : decodeRecords data offs = some recs) :
    recs.length = offs.length ∧
    ∀ i, i < offs.length →
      decodeRecordAt data (offs.getD i 0) = some (recAt recs i) := by
  induction offs generalizing recs with
  | nil =>
    simp [decodeRecords] at h
    subst h
    exact ⟨rfl, by intro i hi; simp at hi⟩
  | cons off rest ih =>
    simp only [decodeRecords] at h
    cases hr : decodeRecordAt data off with
    | none => rw [hr] at h; cases h
    | some r =>
      cases hd : decodeRecords data rest with
      | none => rw [hr, hd] at h; cases h
      | some rs =>
        rw [hr, hd] at h
        simp only [Option.some.injEq] at h
        subst h
        obtain ⟨hlen, hidx⟩ := ih rs hd
        refine ⟨by simp [hlen], ?_⟩
        intro i hi
        cases i with
        | zero =>
          rw [recAt_cons_zero]
          simpa using hr
        | succ j =>
          rw [recAt_cons_succ]
          simpa using hidx j (by simpa using hi)

/-- `NextEntry` below the record count: returns the record at the current
position and advances by one. -/
theorem NextEntry_lt (block : Block) (recs : List KeyValueDeletable)
    (h : decodeRecords block.data block.offsets = some recs)
    (i : Nat) (hi : i < recs.length) :
    BlockIterator.NextEntry ⟨block, i⟩ =
      some (some (recAt recs i), ⟨block, i + 1⟩) := by
  obtain ⟨hlen, hidx⟩ := decodeRecords_some block.data block.offsets recs h
  have hlt : ¬ block.offsets.length ≤ i := by omega
  have hd : decodeRecordAt block.data (block.offsets[i]?.getD 0) = some (recAt recs i) := by
    simpa [List.getD_eq_getElem?_getD] using hidx i (by omega)
  simp [BlockIterator.NextEntry, BlockIterator.loadAtCurrentOffset, hlt, hd,
    BlockIterator.advance]

/-- `NextEntry` at or past the record count: exhausted, no advance. -/
theorem NextEntry_ge (block : Block) (recs : List KeyValueDeletable)
    (h : decodeRecords block.data block.offsets = some recs)
    (i : Nat) (hi : recs.length ≤ i) :
    BlockIterator.NextEntry ⟨block, i⟩ = some (none, ⟨block, i⟩) := by
  obtain ⟨hlen, -⟩ := decodeRecords_some block.data block.offsets recs h
  have hge : block.offsets.length ≤ i := by omega
  simp [BlockIterator.NextEntry, BlockIterator.loadAtCurrentOffset, hge]

/-- The skipping loop yields the first non-tombstoned record at or after
the current position, given enough fuel. -/
theorem nextLoop_find (block : Block) (recs : List KeyValueDeletable)
    (h : decodeRecords block.data block.offsets = some recs) :
    ∀ fuel i, recs.length - i < fuel →
      ∃ it1, nextLoop fuel ⟨block, i⟩ =
        some (((recs.drop i).find? fun r => !r.valueDel.isTombstone).map
          (fun r => KeyValue.mk r.key r.valueDel.value), it1) := by
  intro fuel
  induction fuel with
  | zero => intro i hf; omega
  | succ fuel ih =>
    intro i hf
    by_cases hi : i < recs.length
    · have hne := NextEntry_lt block recs h i hi
      have hdrop : recs.drop i = recAt recs i :: recs.drop (i + 1) := by
        rw [recAt, List.getD_eq_getElem _ _ hi]
        exact List.drop_eq_getElem_cons hi
      by_cases ht : (recAt recs i).valueDel.isTombstone
      · obtain ⟨it1, hl⟩ := ih (i + 1) (by omega)
        refine ⟨it1, ?_⟩
        rw [nextLoop, hne]
        simp only [ht, if_true]
        rw [hl, hdrop, List.find?_cons_of_neg _ (by simp [ht])]
      · refine ⟨⟨block, i + 1⟩, ?_⟩
        rw [nextLoop, hne]
        simp only [ht, if_false]
        rw [hdrop, List.find?_cons_of_pos _ (by simp [ht])]
        simp
    · have hne := NextEntry_ge block recs h i (by omega)
      refine ⟨⟨block, i⟩, ?_⟩
      rw [nextLoop, hne]
      rw [List.drop_eq_nil_of_le (by omega)]
      simp

/-- Claim C4: for every Block whose records all decode and every iterator
position, `NextEntry` returns the record at the current position (including
tombstones) and advances, returning none exactly when the position has
reached the offset count; `Next` skips every tombstoned record, yields only
live pairs (the first non-tombstoned record at or after the position), and
returns none when no live record remains — in particular at exhaustion and
when all remaining records are tombstones. -/
theorem c4_iterator_next (block : Block) (recs : List KeyValueDeletable)
    (h : decodeRecords block.data block.offsets = some recs) :
    (∀ i, i < recs.length →
      BlockIterator.NextEntry ⟨block, i⟩ =
        some (some (recAt recs i), ⟨block, i + 1⟩)) ∧
    (∀ i, recs.length ≤ i →
      BlockIterator.NextEntry ⟨block, i⟩ = some (none, ⟨block, i⟩)) ∧
    (∀ i, ∃ it1, BlockIterator.Next ⟨block, i⟩ =
      some (((recs.drop i).find? fun r => !r.valueDel.isTombstone).map
        (fun r => KeyValue.mk r.key r.valueDel.value), it1)) := by
  refine ⟨NextEntry_lt block recs h, NextEntry_ge block recs h, ?_⟩
  intro i
  have hlen := (decodeRecords_some block.data block.offsets recs h).1
  exact nextLoop_find block recs h (block.offsets.length + 1) i (by omega)

/-- Witness for C4 at a concrete block holding one live record followed by
one tombstone: `Next` from position 1 skips the trailing tombstone and is
exhausted. -/
theorem c4_iterator_next_witness :
    decodeRecords [0, 1, 2, 0, 0, 0, 1, 9, 0, 1, 4, 255, 255, 255, 255] [0, 8] =
      some [⟨[2], ⟨[9], false⟩⟩, ⟨[4], ⟨[], true⟩⟩] ∧
    (∃ it1, BlockIterator.Next
        ⟨Block.mk [0, 1, 2, 0, 0, 0, 1, 9, 0, 1, 4, 255, 255, 255, 255] [0, 8], 1⟩ =
      some (((([⟨[2], ⟨[9], false⟩⟩, ⟨[4], ⟨[], true⟩⟩] :
          List KeyValueDeletable).drop 1).find? fun r => !r.valueDel.isTombstone).map
        (fun r => KeyValue.mk r.key r.valueDel.value), it1)) :=
  ⟨by decide,
   (c4_iterator_next
      (Block.mk [0, 1, 2, 0, 0, 0, 1, 9, 0, 1, 4, 255, 255, 255, 255] [0, 8])
      [⟨[2], ⟨[9], false⟩⟩, ⟨[4], ⟨[], true⟩⟩] (by decide)).2.2 1⟩

/-- The encoded record of a tombstoned add: key-length prefix, key, and the
tombstone sentinel, with no value bytes. -/
theorem decodeRecordAt_single_tombstone (k : List Nat)
    (hlen : k.length ≤ 65533) :
    decodeRecordAt (u16Bytes (k.length % 65536) ++ k ++ u32Bytes Tombstone) 0 =
      some ⟨k, ⟨[], true⟩⟩ := by
  have hkmod : k.length % 65536 = k.length := Nat.mod_eq_of_lt (by omega)
  have hassoc : u16Bytes (k.length % 65536) ++ k ++ u32Bytes Tombstone =
      u16Bytes (k.length % 65536) ++ (k ++ u32Bytes Tombstone) := by
    simp [List.append_assoc]
  have hdlen : (u16Bytes (k.length % 65536) ++ k ++ u32Bytes Tombstone).length =
      k.length + 6 := by
    simp [u16Bytes, u32Bytes]
  have hkl : readU16 (u16Bytes (k.length % 65536) ++ k ++ u32Bytes Tombstone) 0 =
      k.length := by
    rw [hassoc, readU16_u16Bytes _ (by omega) _, hkmod]
  have hdrop2 : (u16Bytes (k.length % 65536) ++ k ++ u32Bytes Tombstone).drop 2 =
      k ++ u32Bytes Tombstone := by
    rw [hassoc]
    have h2 : (u16Bytes (k.length % 65536)).length = 2 := by simp [u16Bytes]
    rw [← h2, List.drop_left]
  have hread : readKey (u16Bytes (k.length % 65536) ++ k ++ u32Bytes Tombstone) 0 =
      some (k, 2 + k.length) := by
    simp only [readKey, Nat.zero_mod, hkl, hdlen]
    rw [if_neg (by omega)]
    have hmod2 : 2 % 65536 = 2 := by norm_num
    have hmodke : (2 % 65536 + k.length) % 65536 = 2 + k.length :=
      by rw [hmod2]; exact Nat.mod_eq_of_lt (by omega)
    rw [hmod2, hmodke]
    rw [if_neg (by omega), if_neg (by omega)]
    rw [hdrop2]
    have : 2 + k.length - 2 = k.length := by omega
    rw [this, List.take_left]
  have hvl : readU32 (u16Bytes (k.length % 65536) ++ k ++ u32Bytes Tombstone)
      (2 + k.length) = Tombstone := by
    have hpre : (u16Bytes (k.length % 65536) ++ k).length = 2 + k.length := by
      simp [u16Bytes]
      omega
    have hre : u16Bytes (k.length % 65536) ++ k ++ u32Bytes Tombstone =
        (u16Bytes (k.length % 65536) ++ k) ++ (u32Bytes Tombstone ++ []) := by
      simp
    rw [← hpre, hre, readU32_at_append _ _ _ (by norm_num [Tombstone])]
  simp only [decodeRecordAt, hread, hdlen]
  rw [if_neg (by omega), hvl, if_pos rfl]

/-- Claim C9: adding a present-but-empty value is indistinguishable from
adding an absent value — the builder transition is identical (both write
the tombstone sentinel and no value bytes) — and the record written by such
an add to a fresh builder decodes with `isTombstone = true` and an empty
value, and `BlockIterator.Next` on the built single-record block skips it
and is exhausted. -/
theorem c9_empty_value_tombstone (b : BlockBuilder) (k : List Nat) (hk : k ≠ []) :
    b.add k (some []) = b.add k none ∧
    (k.length ≤ 65533 →
      ∀ s b1 r, (NewBlockBuilder s).add k (some []) = some (b1, r) →
        r = true ∧
        decodeRecordAt b1.data 0 = some ⟨k, ⟨[], true⟩⟩ ∧
        ∀ blk, b1.build = Except.ok blk →
          (newBlockIteratorFromFirstKey blk).Next = some (none, ⟨blk, 1⟩)) := by
  constructor
  · rfl
  · intro hlen s b1 r hadd
    have hk' : ¬ k.length = 0 := by simpa [List.length_eq_zero] using hk
    have hadd' : (NewBlockBuilder s).add k (some []) =
        some (⟨[0], u16Bytes (k.length % 65536) ++ k ++ u32Bytes Tombstone, s⟩, true) := by
      simp [BlockBuilder.add, NewBlockBuilder, hk', BlockBuilder.isEmpty,
        appendUint16, appendUint32]
    rw [hadd'] at hadd
    obtain ⟨hb1, hr⟩ : (⟨[0], u16Bytes (k.length % 65536) ++ k ++ u32Bytes Tombstone, s⟩ :
        BlockBuilder) = b1 ∧ true = r := by
      simpa [Prod.ext_iff] using hadd
    subst hb1
    subst hr
    refine ⟨rfl, decodeRecordAt_single_tombstone k hlen, ?_⟩
    intro blk hblk
    rw [build_ok _ (by simp)] at hblk
    obtain rfl : Block.mk (u16Bytes (k.length % 65536) ++ k ++ u32Bytes Tombstone) [0] =
        blk := by simpa using hblk
    have hdec2 : decodeRecordAt (u16Bytes (k.length % 65536) ++ (k ++ u32Bytes Tombstone)) 0 =
        some ⟨k, ⟨[], true⟩⟩ := by
      rw [← List.append_assoc]
      exact decodeRecordAt_single_tombstone k hlen
    simp [BlockIterator.Next, nextLoop, BlockIterator.NextEntry,
      BlockIterator.loadAtCurrentOffset, newBlockIteratorFromFirstKey, hdec2,
      BlockIterator.advance]

/-- Witness for C9 at the concrete key `[5]` added to a fresh builder with
budget 3: the same builder state arises from `some []` and `none`, the
record decodes as a tombstone, and `Next` on the built block yields
nothing. -/
theorem c9_empty_value_tombstone_witness :
    (NewBlockBuilder 3).add [5] (some []) = (NewBlockBuilder 3).add [5] none ∧
    decodeRecordAt [0, 1, 5, 255, 255, 255, 255] 0 = some ⟨[5], ⟨[], true⟩⟩ ∧
    (newBlockIteratorFromFirstKey (Block.mk [0, 1, 5, 255, 255, 255, 255] [0])).Next =
      some (none, ⟨Block.mk [0, 1, 5, 255, 255, 255, 255] [0], 1⟩) := by
  have h := c9_empty_value_tombstone (NewBlockBuilder 3) [5] (by decide)
  have h2 := h.2 (by decide) 3
    (BlockBuilder.mk [0] [0, 1, 5, 255, 255, 255, 255] 3) true (by decide)
  exact ⟨h.1, h2.2.1, h2.2.2 (Block.mk [0, 1, 5, 255, 255, 255, 255] [0]) rfl⟩

/-- Witness for C2: a builder holding one record and a 16-byte budget
rejects a further record whose projected size is 20 bytes. -/
theorem c2_add_budget_witness :
    ([5] : List Nat) ≠ [] ∧
    (BlockBuilder.mk [0] [0, 1, 7, 255, 255, 255, 255] 16).add [5] none =
      some (BlockBuilder.mk [0] [0, 1, 7, 255, 255, 255, 255] 16, false) :=
  ⟨by decide,
   (c2_add_budget (BlockBuilder.mk [0] [0, 1, 7, 255, 255, 255, 255] 16) [5] none
      (by decide)).1 ⟨by decide, by decide⟩⟩

end SlateDB
